import Mathlib

/-!
Verification of the finl_unicode repository: grapheme-cluster segmentation
(src/grapheme_clusters.rs) and character-category predicates (src/categories.rs).

Strings are modelled as `List Char` (a Rust `&str` iterated via `CharIndices`
yields its chars in order; a byte slice `&input[start..curr]` taken between two
consecutive cluster boundaries equals the run of chars consumed in between).

The two property tables (`GP_TABLE`/`GP_PAGES` and `CAT_TABLE`/`CAT_PAGES`) are
produced at build time from Unicode data files and are not part of the checked-in
sources, so the lookup functions `get_property` and `get_code` are modelled as an
explicit function parameter `gp : Char → Nat` (resp. `get_code : Char → Nat`);
claims that depend on particular table entries take those entries as hypotheses,
using the encodings fixed in build.rs (`encode_property`, `cat_to_u8`).
All machine integers are `Nat`s; every value involved fits in a byte.
-/

set_option autoImplicit false

namespace FinlUnicode

/-- States of the cluster machine, from `enum ClusterMachineState`. -/
inductive ClusterMachineState where
  | Start
  | Precore
  | CcsBase
  | CrLf
  | HangulSyllableL
  | HangulSyllableV
  | HangulSyllableT
  | CcsExtend
  | Flag
  | Emoji
  | EmojiExtend
  | EmojiZWJ
  | Other
  deriving DecidableEq, Repr

/-- Boundary decisions, from `enum Break`. -/
inductive Break where
  | None
  | Before
  | After
  deriving DecidableEq, Repr

/- Grapheme-break property codes, from the `impl GraphemeProperty` constants. -/
namespace GraphemeProperty

@[simp] def OTHER : Nat := 0x00
@[simp] def EXTEND : Nat := 0x01
@[simp] def SPACING_MARK : Nat := 0x02
@[simp] def ZWJ : Nat := 0x03
@[simp] def CONTROL : Nat := 0x04
@[simp] def PREPEND : Nat := 0x05
@[simp] def EXTENDED_GRAPHEME : Nat := 0x06
@[simp] def REGIONAL_INDICATOR : Nat := 0x07
@[simp] def L : Nat := 0x0c
@[simp] def V : Nat := 0x08
@[simp] def T : Nat := 0x09
@[simp] def LV : Nat := 0x0d
@[simp] def LVT : Nat := 0x0e

end GraphemeProperty

/-- From `fn encode_property` in build.rs: the byte the generated grapheme
property table stores for each `GraphemeBreakProperty.txt` label. -/
def encode_property (property : String) : Nat :=
  match property with
  | "Prepend" => 0x05
  | "CR" => 0x04
  | "LF" => 0x04
  | "Control" => 0x04
  | "Extend" => 0x01
  | "SpacingMark" => 0x02
  | "L" => 0x0c
  | "V" => 0x08
  | "T" => 0x09
  | "LV" => 0x0d
  | "LVT" => 0x0e
  | "ZWJ" => 0x03
  | "Extended_Grapheme" => 0x06
  | "Regional_Indicator" => 0x07
  | _ => 0x00

/-- From `fn is_continuation`. -/
def is_continuation (property : Nat) : Bool :=
  property != 0 && property &&& 0xc == 0

/-- From `fn is_hangul`. -/
def is_hangul (property : Nat) : Bool :=
  property &&& 0x8 != 0

/-- The final `match property` of `ClusterMachine::first_character`: which
state gets assigned to `self.state` for each non-Control property. -/
def firstState (property : Nat) : ClusterMachineState :=
  if property = GraphemeProperty.PREPEND then .Precore
  else if property = GraphemeProperty.EXTEND then .CcsExtend
  else if property = GraphemeProperty.SPACING_MARK then .CcsExtend
  else if property = GraphemeProperty.L then .HangulSyllableL
  else if property = GraphemeProperty.V then .HangulSyllableV
  else if property = GraphemeProperty.T then .HangulSyllableT
  else if property = GraphemeProperty.LV then .HangulSyllableV
  else if property = GraphemeProperty.LVT then .HangulSyllableT
  else if property = GraphemeProperty.EXTENDED_GRAPHEME then .Emoji
  else if property = GraphemeProperty.REGIONAL_INDICATOR then .Flag
  else .Other

/-- From `ClusterMachine::first_character`.  The machine state is passed and
returned explicitly: the result is the pair (state written to `self.state`,
returned `Break`).  `gp` stands for the compiled-in `get_property` table. -/
def first_character (gp : Char → Nat) (c : Char) : ClusterMachineState × Break :=
  if c = '\r' then (.CrLf, .None)
  else if gp c = GraphemeProperty.CONTROL then (.Start, .After)
  else (firstState (gp c), .None)

/-- From `ClusterMachine::find_cluster`, with the mutable state made explicit:
given the current `self.state` and the lookahead char, return the new state and
the `Break` decision.  Rust `match` arms over `u8` constants become equality
tests in the same order. -/
def find_cluster (gp : Char → Nat) (state : ClusterMachineState) (c : Char) :
    ClusterMachineState × Break :=
  if state = .Start then first_character gp c
  else if gp c = GraphemeProperty.CONTROL then
    if state = .CrLf ∧ c = '\n' then (.Start, .After)
    else if c = '\r' then (.CrLf, .Before)
    else (.Start, .Before)
  else
    match state with
    | .Start => first_character gp c
    | .Precore => ((first_character gp c).1, .None)
    | .HangulSyllableL =>
      if gp c = GraphemeProperty.L then (.HangulSyllableL, .None)
      else if gp c = GraphemeProperty.V ∨ gp c = GraphemeProperty.LV then
        (.HangulSyllableV, .None)
      else if gp c = GraphemeProperty.LVT then (.HangulSyllableT, .None)
      else if gp c = GraphemeProperty.EXTEND ∨ gp c = GraphemeProperty.SPACING_MARK ∨
          gp c = GraphemeProperty.ZWJ then (.CcsBase, .None)
      else ((first_character gp c).1, .Before)
    | .HangulSyllableV =>
      if gp c = GraphemeProperty.V then (.HangulSyllableV, .None)
      else if gp c = GraphemeProperty.T then (.HangulSyllableT, .None)
      else if gp c = GraphemeProperty.EXTEND ∨ gp c = GraphemeProperty.SPACING_MARK ∨
          gp c = GraphemeProperty.ZWJ then (.CcsBase, .None)
      else ((first_character gp c).1, .Before)
    | .HangulSyllableT =>
      if gp c = GraphemeProperty.T then (.HangulSyllableT, .None)
      else if gp c = GraphemeProperty.EXTEND ∨ gp c = GraphemeProperty.SPACING_MARK ∨
          gp c = GraphemeProperty.ZWJ then (.CcsBase, .None)
      else ((first_character gp c).1, .Before)
    | .CcsExtend =>
      if gp c = GraphemeProperty.EXTEND ∨ gp c = GraphemeProperty.SPACING_MARK ∨
          gp c = GraphemeProperty.ZWJ then (.CcsExtend, .None)
      else (.CcsExtend, .Before)
    | .Flag =>
      if gp c = GraphemeProperty.REGIONAL_INDICATOR then (.Other, .None)
      else if gp c = GraphemeProperty.EXTEND ∨ gp c = GraphemeProperty.SPACING_MARK ∨
          gp c = GraphemeProperty.ZWJ then (.CcsExtend, .None)
      else ((first_character gp c).1, .Before)
    | .Emoji =>
      if gp c = GraphemeProperty.ZWJ then (.EmojiZWJ, .None)
      else if gp c = GraphemeProperty.EXTEND ∨ gp c = GraphemeProperty.SPACING_MARK then
        (.Emoji, .None)
      else ((first_character gp c).1, .Before)
    | .EmojiZWJ =>
      if gp c = GraphemeProperty.EXTENDED_GRAPHEME then (.Emoji, .None)
      else (.EmojiZWJ, .Before)
    | .CrLf => (.CrLf, .Before)
    | .CcsBase =>
      if is_continuation (gp c) then (.CcsBase, .None)
      else ((first_character gp c).1, .Before)
    | .EmojiExtend =>
      if is_continuation (gp c) then (.EmojiExtend, .None)
      else ((first_character gp c).1, .Before)
    | .Other =>
      if is_continuation (gp c) then (.Other, .None)
      else ((first_character gp c).1, .Before)

/-- Reference form of the per-cluster loop shared by `Graphemes::next` and
`GraphemeCluster::next_cluster`: starting from `state`, peek chars one at a
time through `find_cluster` until a `Before`/`After` decision (or exhaustion),
returning (consumed chars, remaining chars).  Both Rust loops are proved equal
to this below. -/
def clusterSpec (gp : Char → Nat) : ClusterMachineState → List Char → List Char × List Char
  | _, [] => ([], [])
  | s, c :: rest =>
    match find_cluster gp s c with
    | (s', Break.None) =>
      let r := clusterSpec gp s' rest
      (c :: r.1, r.2)
    | (_, Break.Before) => ([], c :: rest)
    | (_, Break.After) => ([c], rest)

/-- The loop inside `Graphemes::next`: the Rust code tracks byte offsets
`start`/`curr_loc` into the input and finally returns `&input[start..curr_loc]`;
here we count the chars consumed (`n`), the cluster being `take n`. -/
def graphemesLoop (gp : Char → Nat) : ClusterMachineState → List Char → Nat → Nat
  | _, [], n => n
  | s, c :: rest, n =>
    match find_cluster gp s c with
    | (s', Break.None) => graphemesLoop gp s' rest (n + 1)
    | (_, Break.Before) => n
    | (_, Break.After) => n + 1

/-- From `impl Iterator for Graphemes`: one call of `next`, returning the
yielded substring together with the remaining input (the iterator's cursor). -/
def graphemesNext (gp : Char → Nat) (cs : List Char) : Option (List Char × List Char) :=
  match cs with
  | [] => none
  | _ =>
    let n := graphemesLoop gp .Start cs 0
    some (cs.take n, cs.drop n)

/-- The loop inside `GraphemeCluster::next_cluster` for `Peekable<CharIndices>`:
`rv` is the `String` being pushed to. -/
def nextClusterLoop (gp : Char → Nat) :
    ClusterMachineState → List Char → List Char → List Char × List Char
  | _, [], rv => (rv, [])
  | s, c :: rest, rv =>
    match find_cluster gp s c with
    | (s', Break.None) => nextClusterLoop gp s' rest (rv ++ [c])
    | (_, Break.Before) => (rv, c :: rest)
    | (_, Break.After) => (rv ++ [c], rest)

/-- From `GraphemeCluster::next_cluster`: one call on a peekable char stream,
returning the owned cluster string and the stream's remaining chars. -/
def next_cluster (gp : Char → Nat) (cs : List Char) : Option (List Char × List Char) :=
  match cs with
  | [] => none
  | _ => some (nextClusterLoop gp .Start cs [])

/-- Driving `Graphemes::next` to exhaustion (collecting the iterator).  The
fuel argument only bounds the number of clusters; `cs.length` suffices because
every yielded cluster is nonempty (proved below). -/
def graphemesListAux (gp : Char → Nat) : Nat → List Char → List (List Char)
  | 0, _ => []
  | fuel + 1, cs =>
    match graphemesNext gp cs with
    | none => []
    | some (cl, rest) => cl :: graphemesListAux gp fuel rest

/-- The full ordered sequence of substrings yielded by the `Graphemes` iterator
constructed from `cs`. -/
def graphemesList (gp : Char → Nat) (cs : List Char) : List (List Char) :=
  graphemesListAux gp cs.length cs

/-- Repeatedly calling `next_cluster` on a peekable char stream until it
returns `None`, collecting the cluster strings in order. -/
def clusterListAux (gp : Char → Nat) : Nat → List Char → List (List Char)
  | 0, _ => []
  | fuel + 1, cs =>
    match next_cluster gp cs with
    | none => []
    | some (cl, rest) => cl :: clusterListAux gp fuel rest

/-- The full ordered sequence of cluster strings produced by repeatedly calling
`next_cluster` on a `Peekable<CharIndices>` over `cs`. -/
def clusterList (gp : Char → Nat) (cs : List Char) : List (List Char) :=
  clusterListAux gp cs.length cs

/- Category codes, from `struct Cat` in src/categories.rs (the commented-out
`Cs` constant is omitted there as well). -/
namespace Cat

@[simp] def Lu : Nat := 0x90
@[simp] def Ll : Nat := 0x91
@[simp] def Lt : Nat := 0x92
@[simp] def LC : Nat := 0x90
@[simp] def Lm : Nat := 0x83
@[simp] def Lo : Nat := 0x84
@[simp] def L : Nat := 0x80
@[simp] def Mn : Nat := 0x10
@[simp] def Mc : Nat := 0x11
@[simp] def Me : Nat := 0x12
@[simp] def M : Nat := 0x10
@[simp] def Nd : Nat := 0x20
@[simp] def Nl : Nat := 0x21
@[simp] def No : Nat := 0x22
@[simp] def N : Nat := 0x20
@[simp] def Pc : Nat := 0x30
@[simp] def Pd : Nat := 0x31
@[simp] def Ps : Nat := 0x32
@[simp] def Pe : Nat := 0x33
@[simp] def Pi : Nat := 0x34
@[simp] def Pf : Nat := 0x35
@[simp] def Po : Nat := 0x36
@[simp] def P : Nat := 0x30
@[simp] def Sm : Nat := 0x40
@[simp] def Sc : Nat := 0x41
@[simp] def Sk : Nat := 0x42
@[simp] def So : Nat := 0x43
@[simp] def S : Nat := 0x40
@[simp] def Zs : Nat := 0x50
@[simp] def Zl : Nat := 0x51
@[simp] def Zp : Nat := 0x52
@[simp] def Z : Nat := 0x50
@[simp] def Cc : Nat := 0x01
@[simp] def Cf : Nat := 0x02
@[simp] def Co : Nat := 0x04
@[simp] def Cn : Nat := 0x00
@[simp] def C : Nat := 0x00

end Cat

/-- From `fn cat_to_u8` in build.rs: the byte the generated category table
stores for each `UnicodeData.txt` General_Category label (anything unrecognized
is 0x60, i.e. Cn/unassigned). -/
def cat_to_u8 (cat : String) : Nat :=
  match cat with
  | "Lu" => 0x90
  | "Ll" => 0x91
  | "Lt" => 0x92
  | "Lm" => 0x83
  | "Lo" => 0x84
  | "Mn" => 0x10
  | "Mc" => 0x11
  | "Me" => 0x12
  | "Nd" => 0x20
  | "Nl" => 0x21
  | "No" => 0x22
  | "Pc" => 0x30
  | "Pd" => 0x31
  | "Ps" => 0x32
  | "Pe" => 0x33
  | "Pi" => 0x34
  | "Pf" => 0x35
  | "Po" => 0x36
  | "Sm" => 0x40
  | "Sc" => 0x41
  | "Sk" => 0x42
  | "So" => 0x43
  | "Zs" => 0x50
  | "Zl" => 0x51
  | "Zp" => 0x52
  | "Cc" => 0x61
  | "Cf" => 0x62
  | "Cs" => 0x63
  | "Co" => 0x64
  | _ => 0x60

/- The predicates from `impl CharacterCategories for char`.  `get_code` stands
for the compiled-in category table lookup of the same name. -/

/-- From `fn is_letter`. -/
def is_letter (get_code : Char → Nat) (c : Char) : Bool :=
  get_code c &&& Cat.L == Cat.L

/-- From `fn is_cased_letter`. -/
def is_cased_letter (get_code : Char → Nat) (c : Char) : Bool :=
  get_code c &&& 0xf0 == Cat.LC

/-- From `fn is_control`. -/
def is_control (get_code : Char → Nat) (c : Char) : Bool :=
  get_code c == Cat.Cc

/-- From `fn is_format`. -/
def is_format (get_code : Char → Nat) (c : Char) : Bool :=
  get_code c == Cat.Cf

/-- From `fn is_private_use`. -/
def is_private_use (get_code : Char → Nat) (c : Char) : Bool :=
  get_code c == Cat.Co

/-- From `fn is_unassigned`. -/
def is_unassigned (get_code : Char → Nat) (c : Char) : Bool :=
  get_code c == Cat.Cn

/-- From `enum Either`, the tagged union stored in the top-level table: either
a literal code for a whole 256-char page or an index into the page array.
The same shape is used for both the category and the grapheme-property table. -/
inductive Either where
  | Code (code : Nat)
  | Page (page : Nat)
  deriving DecidableEq, Repr

/-- One compiled two-level table: `table` models `GP_TABLE`/`CAT_TABLE` and
`pages` models `GP_PAGES`/`CAT_PAGES`. -/
structure PropertyTable where
  table : List Either
  pages : List (List Nat)

/-- From `Either::get_code`: `GP_PAGES[usize::from(page)][usize::from(index)]`.
Indexing is modelled with the checked `getElem?` so that an out-of-bounds
access is observable as `none` instead of being ruled out by the type. -/
def Either.get_code (t : PropertyTable) : Either → Nat → Option Nat
  | .Code code, _ => some code
  | .Page page, index => (t.pages[page]?).bind fun pg => pg[index]?

/-- From `fn get_property` (and the identical `fn get_code` in categories.rs):
`TABLE[c as usize >> 8].get_code(c as u8)`. -/
def PropertyTable.get_property (t : PropertyTable) (c : Char) : Option Nat :=
  (t.table[c.toNat >>> 8]?).bind fun e => e.get_code t (c.toNat % 256)

/-- Modelled from the spec: the shape contract of the build-generated tables,
which are not part of the checked-in sources — a `top_level: [Entry; 0x1100]`
array (so exactly 0x1100 entries), page references pointing into the page
array, and 256-byte pages (`pages: [[byte; 256]]`).  In Rust this is enforced
by the array types of the generated constants. -/
def PropertyTable.WellFormed (t : PropertyTable) : Prop :=
  t.table.length = 0x1100 ∧
  (∀ p, Either.Page p ∈ t.table → p < t.pages.length) ∧
  (∀ pg ∈ t.pages, pg.length = 256)

/-- All chars of the list have grapheme-break property `L`. -/
def allL (gp : Char → Nat) (cs : List Char) : Bool :=
  cs.all fun c => gp c == GraphemeProperty.L

/-- All chars of the list have grapheme-break property `T`. -/
def allT (gp : Char → Nat) (cs : List Char) : Bool :=
  cs.all fun c => gp c == GraphemeProperty.T

/-- All chars of the list have grapheme-break property `T` or `LVT`. -/
def allTorLVT (gp : Char → Nat) (cs : List Char) : Bool :=
  cs.all fun c => gp c == GraphemeProperty.T || gp c == GraphemeProperty.LVT

/-- Matcher for the regular expression `L* (V|LV) T*` over grapheme-break
properties (deterministic: `L` is distinct from `V` and `LV`). -/
def matchesCore (gp : Char → Nat) : List Char → Bool
  | [] => false
  | c :: rest =>
    if gp c == GraphemeProperty.L then matchesCore gp rest
    else if gp c == GraphemeProperty.V || gp c == GraphemeProperty.LV then allT gp rest
    else false

/-- Matcher for the regular expression `L* (V|LV) (T|LVT)*` — the Hangul-run
shape claimed by the spec. -/
def matchesCoreSpec (gp : Char → Nat) : List Char → Bool
  | [] => false
  | c :: rest =>
    if gp c == GraphemeProperty.L then matchesCoreSpec gp rest
    else if gp c == GraphemeProperty.V || gp c == GraphemeProperty.LV then allTorLVT gp rest
    else false

/-- A run matching `L* (V|LV) T*` or `L+`: the Hangul-run shape the cluster
machine actually keeps in one cluster. -/
def MatchesHangul (gp : Char → Nat) (run : List Char) : Bool :=
  matchesCore gp run || (!run.isEmpty && allL gp run)

/-- A run matching `L* (V|LV) (T|LVT)*` or `L+`: the Hangul-run shape stated
by the spec. -/
def MatchesHangulSpec (gp : Char → Nat) (run : List Char) : Bool :=
  matchesCoreSpec gp run || (!run.isEmpty && allL gp run)

/-! Basic facts about the machine and the per-cluster loops. -/

theorem first_character_snd (gp : Char → Nat) (c : Char) :
    (first_character gp c).2 = Break.None ∨ (first_character gp c).2 = Break.After := by
  rw [first_character]
  by_cases h1 : c = '\r'
  · rw [if_pos h1]; exact Or.inl rfl
  rw [if_neg h1]
  by_cases h2 : gp c = GraphemeProperty.CONTROL
  · rw [if_pos h2]; exact Or.inr rfl
  · rw [if_neg h2]; exact Or.inl rfl

theorem first_character_not_before (gp : Char → Nat) (c : Char) :
    (first_character gp c).2 ≠ Break.Before := by
  rcases first_character_snd gp c with h | h <;> simp [h]

theorem find_cluster_start (gp : Char → Nat) (c : Char) :
    find_cluster gp .Start c = first_character gp c := by
  simp [find_cluster]

theorem clusterSpec_append (gp : Char → Nat) (cs : List Char) :
    ∀ s : ClusterMachineState, (clusterSpec gp s cs).1 ++ (clusterSpec gp s cs).2 = cs := by
  induction cs with
  | nil => intro s; simp [clusterSpec]
  | cons c rest ih =>
    intro s
    rw [clusterSpec]
    rcases h : find_cluster gp s c with ⟨s', b⟩
    cases b <;> simp [ih]

theorem clusterSpec_start_ne_nil (gp : Char → Nat) (cs : List Char) (h : cs ≠ []) :
    (clusterSpec gp .Start cs).1 ≠ [] := by
  match cs with
  | [] => exact absurd rfl h
  | c :: rest =>
    rw [clusterSpec]
    rcases hf : find_cluster gp .Start c with ⟨s', b⟩
    cases b with
    | None => simp
    | Before =>
      exfalso
      apply first_character_not_before gp c
      rw [← find_cluster_start gp c, hf]
    | After => simp

theorem nextClusterLoop_eq (gp : Char → Nat) (cs : List Char) :
    ∀ (s : ClusterMachineState) (rv : List Char),
      nextClusterLoop gp s cs rv = (rv ++ (clusterSpec gp s cs).1, (clusterSpec gp s cs).2) := by
  induction cs with
  | nil => intro s rv; simp [nextClusterLoop, clusterSpec]
  | cons c rest ih =>
    intro s rv
    rw [nextClusterLoop, clusterSpec]
    rcases h : find_cluster gp s c with ⟨s', b⟩
    cases b <;> simp [ih]

theorem graphemesLoop_eq (gp : Char → Nat) (cs : List Char) :
    ∀ (s : ClusterMachineState) (n : Nat),
      graphemesLoop gp s cs n = n + (clusterSpec gp s cs).1.length := by
  induction cs with
  | nil => intro s n; simp [graphemesLoop, clusterSpec]
  | cons c rest ih =>
    intro s n
    rw [graphemesLoop, clusterSpec]
    rcases h : find_cluster gp s c with ⟨s', b⟩
    cases b with
    | None => simp [ih]; omega
    | Before => simp
    | After => simp

theorem graphemesNext_eq_clusterSpec (gp : Char → Nat) (cs : List Char) (h : cs ≠ []) :
    graphemesNext gp cs = some (clusterSpec gp .Start cs) := by
  match cs with
  | c :: rest =>
    have h0 : graphemesNext gp (c :: rest) =
        some ((c :: rest).take (graphemesLoop gp .Start (c :: rest) 0),
          (c :: rest).drop (graphemesLoop gp .Start (c :: rest) 0)) := rfl
    rw [h0, graphemesLoop_eq gp (c :: rest) .Start 0]
    have ha := clusterSpec_append gp (c :: rest) .Start
    rcases hs : clusterSpec gp .Start (c :: rest) with ⟨cl, rem⟩
    rw [hs] at ha
    simp only at ha
    simp only [hs, Nat.zero_add]
    rw [← ha, List.take_left, List.drop_left]

theorem next_cluster_eq_clusterSpec (gp : Char → Nat) (cs : List Char) (h : cs ≠ []) :
    next_cluster gp cs = some (clusterSpec gp .Start cs) := by
  match cs with
  | c :: rest =>
    have h0 : next_cluster gp (c :: rest) =
        some (nextClusterLoop gp .Start (c :: rest) []) := rfl
    rw [h0, nextClusterLoop_eq]
    simp

theorem next_cluster_eq_graphemesNext (gp : Char → Nat) (cs : List Char) :
    next_cluster gp cs = graphemesNext gp cs := by
  match cs with
  | [] => rfl
  | c :: rest =>
    rw [next_cluster_eq_clusterSpec gp _ (List.cons_ne_nil c rest),
      graphemesNext_eq_clusterSpec gp _ (List.cons_ne_nil c rest)]

theorem graphemesNext_some (gp : Char → Nat) (cs cl rem : List Char)
    (h : graphemesNext gp cs = some (cl, rem)) : cl ++ rem = cs ∧ cl ≠ [] := by
  match cs with
  | [] => exact absurd h (by rw [graphemesNext]; simp)
  | c :: rest =>
    rw [graphemesNext_eq_clusterSpec gp _ (List.cons_ne_nil c rest)] at h
    have h1 : cl = (clusterSpec gp .Start (c :: rest)).1 := by
      rcases hs : clusterSpec gp .Start (c :: rest) with ⟨a, b⟩
      rw [hs] at h; cases h; rfl
    have h2 : rem = (clusterSpec gp .Start (c :: rest)).2 := by
      rcases hs : clusterSpec gp .Start (c :: rest) with ⟨a, b⟩
      rw [hs] at h; cases h; rfl
    subst h1; subst h2
    exact ⟨clusterSpec_append gp (c :: rest) .Start,
      clusterSpec_start_ne_nil gp _ (List.cons_ne_nil c rest)⟩

theorem graphemesListAux_nil (gp : Char → Nat) (f : Nat) :
    graphemesListAux gp f [] = [] := by
  cases f <;> rfl

theorem graphemesListAux_cons (gp : Char → Nat) (f : Nat) (cs cl rem : List Char)
    (h : graphemesNext gp cs = some (cl, rem)) :
    graphemesListAux gp (f + 1) cs = cl :: graphemesListAux gp f rem := by
  rw [graphemesListAux, h]

theorem graphemesListAux_congr (gp : Char → Nat) :
    ∀ (n : Nat) (cs : List Char) (f1 f2 : Nat), cs.length ≤ n →
      cs.length ≤ f1 → cs.length ≤ f2 →
      graphemesListAux gp f1 cs = graphemesListAux gp f2 cs := by
  intro n
  induction n with
  | zero =>
    intro cs f1 f2 hn _ _
    have : cs = [] := List.length_eq_zero.mp (Nat.le_zero.mp hn)
    subst this
    rw [graphemesListAux_nil, graphemesListAux_nil]
  | succ n ih =>
    intro cs f1 f2 hn h1 h2
    match cs with
    | [] => rw [graphemesListAux_nil, graphemesListAux_nil]
    | c :: rest =>
      have hne := List.cons_ne_nil c rest
      rcases hnext : graphemesNext gp (c :: rest) with _ | ⟨cl, rem⟩
      · rw [graphemesNext_eq_clusterSpec gp _ hne] at hnext; cases hnext
      · rcases graphemesNext_some gp _ _ _ hnext with ⟨happ, hcl⟩
        have hrem : rem.length + 1 ≤ rest.length + 1 := by
          have hh := congrArg List.length happ
          simp only [List.length_append, List.length_cons] at hh
          cases cl with
          | nil => exact absurd rfl hcl
          | cons a l => simp only [List.length_cons] at hh; omega
        simp only [List.length_cons] at hn h1 h2
        match f1, f2 with
        | f1' + 1, f2' + 1 =>
          rw [graphemesListAux_cons gp f1' _ _ _ hnext,
            graphemesListAux_cons gp f2' _ _ _ hnext,
            ih rem f1' f2' (by omega) (by omega) (by omega)]

theorem graphemesList_cons (gp : Char → Nat) (cs : List Char) (h : cs ≠ []) :
    graphemesList gp cs = (clusterSpec gp .Start cs).1 ::
      graphemesList gp (clusterSpec gp .Start cs).2 := by
  rcases hs : clusterSpec gp .Start cs with ⟨cl, rem⟩
  have hnext : graphemesNext gp cs = some (cl, rem) := by
    rw [graphemesNext_eq_clusterSpec gp _ h, hs]
  rcases graphemesNext_some gp _ _ _ hnext with ⟨happ, hcl⟩
  match cs with
  | c :: rest =>
    have hrem : rem.length ≤ rest.length := by
      have hh := congrArg List.length happ
      simp only [List.length_append, List.length_cons] at hh
      cases cl with
      | nil => exact absurd rfl hcl
      | cons a l => simp only [List.length_cons] at hh; omega
    rw [graphemesList, List.length_cons, graphemesListAux_cons gp rest.length _ _ _ hnext]
    simp only
    congr 1
    rw [graphemesList]
    exact graphemesListAux_congr gp rest.length rem rest.length rem.length hrem hrem
      (Nat.le_refl _)

theorem clusterListAux_eq_graphemesListAux (gp : Char → Nat) :
    ∀ (f : Nat) (cs : List Char), clusterListAux gp f cs = graphemesListAux gp f cs := by
  intro f
  induction f with
  | zero => intro cs; rfl
  | succ f ih =>
    intro cs
    rw [clusterListAux, graphemesListAux, next_cluster_eq_graphemesNext]
    rcases h : graphemesNext gp cs with _ | ⟨cl, rem⟩
    · rfl
    · simp only
      rw [ih]

theorem graphemesListAux_flatten (gp : Char → Nat) :
    ∀ (n : Nat) (cs : List Char), cs.length ≤ n →
      (graphemesListAux gp n cs).flatten = cs := by
  intro n
  induction n with
  | zero =>
    intro cs hn
    have : cs = [] := List.length_eq_zero.mp (Nat.le_zero.mp hn)
    subst this
    rfl
  | succ n ih =>
    intro cs hn
    match cs with
    | [] => rw [graphemesListAux_nil]; rfl
    | c :: rest =>
      have hne := List.cons_ne_nil c rest
      rcases hnext : graphemesNext gp (c :: rest) with _ | ⟨cl, rem⟩
      · rw [graphemesNext_eq_clusterSpec gp _ hne] at hnext; cases hnext
      · rcases graphemesNext_some gp _ _ _ hnext with ⟨happ, hcl⟩
        have hrem : rem.length ≤ n := by
          have hh := congrArg List.length happ
          simp only [List.length_append, List.length_cons] at hh hn
          cases cl with
          | nil => exact absurd rfl hcl
          | cons a l => simp only [List.length_cons] at hh; omega
        rw [graphemesListAux_cons gp n _ _ _ hnext, List.flatten_cons, ih rem hrem, happ]

/-! CRLF handling.  The hypotheses `gp '\r' = CONTROL` and `gp '\n' = CONTROL`
record what the generated table stores for CR and LF (build.rs encodes the
`CR`, `LF` and `Control` lines of GraphemeBreakProperty.txt all as 0x04). -/

theorem find_cluster_control (gp : Char → Nat) (s : ClusterMachineState) (c : Char)
    (h1 : s ≠ .Start) (h2 : gp c = GraphemeProperty.CONTROL) :
    find_cluster gp s c =
      if s = .CrLf ∧ c = '\n' then (.Start, .After)
      else if c = '\r' then (.CrLf, .Before)
      else (.Start, .Before) := by
  rw [find_cluster.eq_def, if_neg h1, if_pos h2]

theorem find_cluster_cr_none (gp : Char → Nat) (hcr : gp '\r' = GraphemeProperty.CONTROL)
    (s : ClusterMachineState) (h : (find_cluster gp s '\r').2 = Break.None) :
    (find_cluster gp s '\r').1 = .CrLf := by
  by_cases hs : s = .Start
  · subst hs
    rw [find_cluster_start, first_character, if_pos rfl]
  · rw [find_cluster_control gp s '\r' hs hcr] at h ⊢
    have hne : ¬(s = .CrLf ∧ ('\r' : Char) = '\n') := by
      rintro ⟨-, hh⟩; exact absurd hh (by decide)
    rw [if_neg hne, if_pos rfl] at h
    cases h

theorem find_cluster_cr_not_after (gp : Char → Nat)
    (hcr : gp '\r' = GraphemeProperty.CONTROL) (s : ClusterMachineState) :
    (find_cluster gp s '\r').2 ≠ Break.After := by
  by_cases hs : s = .Start
  · subst hs
    rw [find_cluster_start, first_character, if_pos rfl]
    exact fun h => by cases h
  · rw [find_cluster_control gp s '\r' hs hcr]
    have hne : ¬(s = .CrLf ∧ ('\r' : Char) = '\n') := by
      rintro ⟨-, hh⟩; exact absurd hh (by decide)
    rw [if_neg hne, if_pos rfl]
    exact fun h => by cases h

theorem find_cluster_crlf_lf (gp : Char → Nat)
    (hlf : gp '\n' = GraphemeProperty.CONTROL) :
    find_cluster gp .CrLf '\n' = (.Start, .After) := by
  rw [find_cluster_control gp .CrLf '\n' (by simp) hlf, if_pos ⟨rfl, rfl⟩]

theorem clusterSpec_cr_no_lf (gp : Char → Nat)
    (hcr : gp '\r' = GraphemeProperty.CONTROL) (hlf : gp '\n' = GraphemeProperty.CONTROL)
    (cs : List Char) :
    ∀ s : ClusterMachineState, (clusterSpec gp s cs).1.getLast? = some '\r' →
      (clusterSpec gp s cs).2.head? ≠ some '\n' := by
  induction cs with
  | nil => intro s h; simp [clusterSpec] at h
  | cons c rest ih =>
    intro s hlast
    rw [clusterSpec] at hlast ⊢
    rcases hf : find_cluster gp s c with ⟨s', b⟩
    rw [hf] at hlast
    cases b with
    | None =>
      simp only at hlast ⊢
      rcases hcl : (clusterSpec gp s' rest).1 with _ | ⟨a, l⟩
      · rw [hcl] at hlast
        simp only [List.getLast?_singleton, Option.some.injEq] at hlast
        subst hlast
        have hs' : s' = .CrLf := by
          have := find_cluster_cr_none gp hcr s (by rw [hf])
          rw [hf] at this; exact this
        subst hs'
        match rest with
        | [] =>
          rw [clusterSpec]; simp
        | d :: rest' =>
          rw [clusterSpec] at hcl ⊢
          rcases hfd : find_cluster gp .CrLf d with ⟨s'', b'⟩
          rw [hfd] at hcl
          cases b' with
          | None => simp at hcl
          | Before =>
            simp only
            intro hd
            simp only [List.head?_cons, Option.some.injEq] at hd
            subst hd
            rw [find_cluster_crlf_lf gp hlf] at hfd
            cases hfd
          | After => simp at hcl
      · rw [hcl] at hlast
        rw [List.getLast?_cons_cons] at hlast
        exact ih s' (by rw [hcl]; exact hlast)
    | Before => simp at hlast
    | After =>
      simp only [List.getLast?_singleton, Option.some.injEq] at hlast
      subst hlast
      exact absurd (by rw [hf]) (find_cluster_cr_not_after gp hcr s)

theorem graphemesListAux_head (gp : Char → Nat) (n : Nat) (cs : List Char)
    (h : cs ≠ []) (hn : 1 ≤ n) :
    (graphemesListAux gp n cs).head? = some (clusterSpec gp .Start cs).1 := by
  match n with
  | m + 1 =>
    have hnext : graphemesNext gp cs =
        some ((clusterSpec gp .Start cs).1, (clusterSpec gp .Start cs).2) := by
      rw [graphemesNext_eq_clusterSpec gp _ h]
    rw [graphemesListAux_cons gp m _ _ _ hnext, List.head?_cons]

theorem crlf_chain (gp : Char → Nat)
    (hcr : gp '\r' = GraphemeProperty.CONTROL) (hlf : gp '\n' = GraphemeProperty.CONTROL) :
    ∀ (n : Nat) (cs : List Char), cs.length ≤ n →
      List.Chain' (fun a b => ¬(a.getLast? = some '\r' ∧ b.head? = some '\n'))
        (graphemesListAux gp n cs) := by
  intro n
  induction n with
  | zero =>
    intro cs hn
    have : cs = [] := List.length_eq_zero.mp (Nat.le_zero.mp hn)
    subst this
    exact List.chain'_nil
  | succ n ih =>
    intro cs hn
    match cs with
    | [] => rw [graphemesListAux_nil]; exact List.chain'_nil
    | c :: rest =>
      have hne := List.cons_ne_nil c rest
      have hnext : graphemesNext gp (c :: rest) =
          some ((clusterSpec gp .Start (c :: rest)).1, (clusterSpec gp .Start (c :: rest)).2) := by
        rw [graphemesNext_eq_clusterSpec gp _ hne]
      rcases graphemesNext_some gp _ _ _ hnext with ⟨happ, hcl⟩
      have hrem : (clusterSpec gp .Start (c :: rest)).2.length ≤ n := by
        have hh := congrArg List.length happ
        simp only [List.length_append, List.length_cons] at hh hn
        rcases hcl' : (clusterSpec gp .Start (c :: rest)).1 with _ | ⟨a, l⟩
        · exact absurd hcl' hcl
        · rw [hcl'] at hh; simp only [List.length_cons] at hh; omega
      rw [graphemesListAux_cons gp n _ _ _ hnext, List.chain'_cons']
      refine ⟨?_, ih _ hrem⟩
      intro y hy
      rcases hrcase : (clusterSpec gp .Start (c :: rest)).2 with _ | ⟨d, rest'⟩
      · rw [hrcase, graphemesListAux_nil] at hy
        simp at hy
      · have hrne : (clusterSpec gp .Start (c :: rest)).2 ≠ [] := by
          rw [hrcase]; exact List.cons_ne_nil d rest'
        have hn1 : 1 ≤ n := by
          rw [hrcase] at hrem; simp only [List.length_cons] at hrem; omega
        rw [graphemesListAux_head gp n _ hrne hn1] at hy
        simp only [Option.mem_def, Option.some.injEq] at hy
        subst hy
        rintro ⟨hlast, hhead⟩
        apply clusterSpec_cr_no_lf gp hcr hlf (c :: rest) .Start hlast
        have happ2 := clusterSpec_append gp (clusterSpec gp .Start (c :: rest)).2 .Start
        have hyne := clusterSpec_start_ne_nil gp _ hrne
        rcases hycase : (clusterSpec gp .Start (clusterSpec gp .Start (c :: rest)).2).1
          with _ | ⟨a', l'⟩
        · exact absurd hycase hyne
        · rw [hycase] at happ2 hhead
          rw [← happ2, List.cons_append, List.head?_cons]
          rw [List.head?_cons] at hhead
          exact hhead

/-! Hangul-syllable and regional-indicator transitions, used for C5, C6, C7. -/

theorem fc_hangulL_L (gp : Char → Nat) (c : Char) (h : gp c = GraphemeProperty.L) :
    find_cluster gp .HangulSyllableL c = (.HangulSyllableL, .None) := by
  simp [find_cluster.eq_def, h]

theorem fc_hangulL_VLV (gp : Char → Nat) (c : Char)
    (h : gp c = GraphemeProperty.V ∨ gp c = GraphemeProperty.LV) :
    find_cluster gp .HangulSyllableL c = (.HangulSyllableV, .None) := by
  rcases h with h | h <;> simp [find_cluster.eq_def, h]

theorem fc_hangulV_V (gp : Char → Nat) (c : Char) (h : gp c = GraphemeProperty.V) :
    find_cluster gp .HangulSyllableV c = (.HangulSyllableV, .None) := by
  simp [find_cluster.eq_def, h]

theorem fc_hangulV_T (gp : Char → Nat) (c : Char) (h : gp c = GraphemeProperty.T) :
    find_cluster gp .HangulSyllableV c = (.HangulSyllableT, .None) := by
  simp [find_cluster.eq_def, h]

theorem fc_hangulT_T (gp : Char → Nat) (c : Char) (h : gp c = GraphemeProperty.T) :
    find_cluster gp .HangulSyllableT c = (.HangulSyllableT, .None) := by
  simp [find_cluster.eq_def, h]

theorem fc_flag_RI (gp : Char → Nat) (c : Char)
    (h : gp c = GraphemeProperty.REGIONAL_INDICATOR) :
    find_cluster gp .Flag c = (.Other, .None) := by
  simp [find_cluster.eq_def, h]

theorem fc_start_prop (gp : Char → Nat) (c : Char) (hc : c ≠ '\r')
    (h4 : gp c ≠ GraphemeProperty.CONTROL) :
    find_cluster gp .Start c = (firstState (gp c), .None) := by
  rw [find_cluster_start, first_character, if_neg hc, if_neg h4]

theorem fc_L_cases (gp : Char → Nat) (c : Char) (hc : c ≠ '\r')
    (h : gp c = GraphemeProperty.L) (s : ClusterMachineState) :
    (find_cluster gp s c).2 = Break.Before ∨
    find_cluster gp s c = (.HangulSyllableL, Break.None) := by
  cases s <;>
    simp [find_cluster.eq_def, h, hc, first_character, firstState, is_continuation]

theorem fc_VLV_cases (gp : Char → Nat) (c : Char) (hc : c ≠ '\r')
    (h : gp c = GraphemeProperty.V ∨ gp c = GraphemeProperty.LV) (s : ClusterMachineState) :
    (find_cluster gp s c).2 = Break.Before ∨
    find_cluster gp s c = (.HangulSyllableV, Break.None) := by
  rcases h with h | h <;> cases s <;>
    simp [find_cluster.eq_def, h, hc, first_character, firstState, is_continuation]

theorem fc_T_cases (gp : Char → Nat) (c : Char) (hc : c ≠ '\r')
    (h : gp c = GraphemeProperty.T) (s : ClusterMachineState) :
    (find_cluster gp s c).2 = Break.Before ∨
    find_cluster gp s c = (.HangulSyllableT, Break.None) := by
  cases s <;>
    simp [find_cluster.eq_def, h, hc, first_character, firstState, is_continuation]

theorem fc_RI_cases (gp : Char → Nat) (c : Char) (hc : c ≠ '\r')
    (h : gp c = GraphemeProperty.REGIONAL_INDICATOR) (s : ClusterMachineState) :
    (find_cluster gp s c).2 = Break.Before ∨
    find_cluster gp s c = (.Flag, Break.None) ∨
    (s = .Flag ∧ find_cluster gp s c = (.Other, Break.None)) := by
  cases s <;>
    simp [find_cluster.eq_def, h, hc, first_character, firstState, is_continuation]

theorem firstState_flag (p : Nat) (h : firstState p = .Flag) :
    p = GraphemeProperty.REGIONAL_INDICATOR := by
  unfold firstState at h
  split_ifs at h
  all_goals simp_all

theorem first_character_flag (gp : Char → Nat) (p : Char)
    (h : (first_character gp p).1 = .Flag) :
    gp p = GraphemeProperty.REGIONAL_INDICATOR := by
  rw [first_character] at h
  by_cases hr : p = '\r'
  · rw [if_pos hr] at h; simp at h
  · rw [if_neg hr] at h
    by_cases h4 : gp p = GraphemeProperty.CONTROL
    · rw [if_pos h4] at h; simp at h
    · rw [if_neg h4] at h
      exact firstState_flag _ h

theorem find_cluster_flag_origin (gp : Char → Nat) (sp : ClusterMachineState) (p : Char)
    (h : find_cluster gp sp p = (.Flag, Break.None)) :
    gp p = GraphemeProperty.REGIONAL_INDICATOR := by
  by_cases h4 : gp p = GraphemeProperty.CONTROL
  · by_cases hsp : sp = .Start
    · subst hsp
      rw [find_cluster_start, first_character] at h
      by_cases hr : p = '\r'
      · rw [if_pos hr] at h; simp at h
      · rw [if_neg hr, if_pos h4] at h; simp at h
    · rw [find_cluster_control gp sp p hsp h4] at h
      split_ifs at h <;> simp_all
  · cases sp with
    | Start =>
      rw [find_cluster_start] at h
      exact first_character_flag gp p (by rw [h])
    | Precore =>
      simp only [find_cluster.eq_def] at h
      rw [if_neg (by simp : ¬(ClusterMachineState.Precore = ClusterMachineState.Start)),
        if_neg h4] at h
      exact first_character_flag gp p (by
        have := congrArg Prod.fst h
        simpa using this)
    | HangulSyllableL =>
      simp only [find_cluster.eq_def] at h
      rw [if_neg (by simp : ¬(ClusterMachineState.HangulSyllableL = ClusterMachineState.Start)),
        if_neg h4] at h
      split_ifs at h <;> simp_all
    | HangulSyllableV =>
      simp only [find_cluster.eq_def] at h
      rw [if_neg (by simp : ¬(ClusterMachineState.HangulSyllableV = ClusterMachineState.Start)),
        if_neg h4] at h
      split_ifs at h <;> simp_all
    | HangulSyllableT =>
      simp only [find_cluster.eq_def] at h
      rw [if_neg (by simp : ¬(ClusterMachineState.HangulSyllableT = ClusterMachineState.Start)),
        if_neg h4] at h
      split_ifs at h <;> simp_all
    | CcsExtend =>
      simp only [find_cluster.eq_def] at h
      rw [if_neg (by simp : ¬(ClusterMachineState.CcsExtend = ClusterMachineState.Start)),
        if_neg h4] at h
      split_ifs at h <;> simp_all
    | Flag =>
      simp only [find_cluster.eq_def] at h
      rw [if_neg (by simp : ¬(ClusterMachineState.Flag = ClusterMachineState.Start)),
        if_neg h4] at h
      split_ifs at h <;> simp_all
    | Emoji =>
      simp only [find_cluster.eq_def] at h
      rw [if_neg (by simp : ¬(ClusterMachineState.Emoji = ClusterMachineState.Start)),
        if_neg h4] at h
      split_ifs at h <;> simp_all
    | EmojiZWJ =>
      simp only [find_cluster.eq_def] at h
      rw [if_neg (by simp : ¬(ClusterMachineState.EmojiZWJ = ClusterMachineState.Start)),
        if_neg h4] at h
      split_ifs at h <;> simp_all
    | CrLf =>
      simp only [find_cluster.eq_def] at h
      rw [if_neg (by simp : ¬(ClusterMachineState.CrLf = ClusterMachineState.Start)),
        if_neg h4] at h
      simp at h
    | CcsBase =>
      simp only [find_cluster.eq_def] at h
      rw [if_neg (by simp : ¬(ClusterMachineState.CcsBase = ClusterMachineState.Start)),
        if_neg h4] at h
      split_ifs at h <;> simp_all
    | EmojiExtend =>
      simp only [find_cluster.eq_def] at h
      rw [if_neg (by simp : ¬(ClusterMachineState.EmojiExtend = ClusterMachineState.Start)),
        if_neg h4] at h
      split_ifs at h <;> simp_all
    | Other =>
      simp only [find_cluster.eq_def] at h
      rw [if_neg (by simp : ¬(ClusterMachineState.Other = ClusterMachineState.Start)),
        if_neg h4] at h
      split_ifs at h <;> simp_all

/-! Consuming a Hangul run inside one cluster. -/

theorem clusterSpec_T_chain (gp : Char → Nat) :
    ∀ (ts rest : List Char), allT gp ts = true →
      clusterSpec gp .HangulSyllableT (ts ++ rest) =
        (ts ++ (clusterSpec gp .HangulSyllableT rest).1,
         (clusterSpec gp .HangulSyllableT rest).2) := by
  intro ts
  induction ts with
  | nil => intro rest _; simp
  | cons t ts' ih =>
    intro rest hall
    rw [allT, List.all_cons, Bool.and_eq_true, beq_iff_eq] at hall
    rw [List.cons_append, clusterSpec, fc_hangulT_T gp t hall.1]
    simp only
    rw [ih rest hall.2]
    rfl

theorem clusterSpec_V_chain (gp : Char → Nat) (ts rest : List Char)
    (hall : allT gp ts = true) :
    ∃ s', (s' = ClusterMachineState.HangulSyllableV ∨
           s' = ClusterMachineState.HangulSyllableT) ∧
      clusterSpec gp .HangulSyllableV (ts ++ rest) =
        (ts ++ (clusterSpec gp s' rest).1, (clusterSpec gp s' rest).2) := by
  cases ts with
  | nil => exact ⟨.HangulSyllableV, Or.inl rfl, by simp⟩
  | cons t ts' =>
    rw [allT, List.all_cons, Bool.and_eq_true, beq_iff_eq] at hall
    refine ⟨.HangulSyllableT, Or.inr rfl, ?_⟩
    rw [List.cons_append, clusterSpec, fc_hangulV_T gp t hall.1]
    simp only
    rw [clusterSpec_T_chain gp ts' rest hall.2]
    rfl

theorem clusterSpec_L_chain (gp : Char → Nat) :
    ∀ (ls rest : List Char), allL gp ls = true →
      clusterSpec gp .HangulSyllableL (ls ++ rest) =
        (ls ++ (clusterSpec gp .HangulSyllableL rest).1,
         (clusterSpec gp .HangulSyllableL rest).2) := by
  intro ls
  induction ls with
  | nil => intro rest _; simp
  | cons l ls' ih =>
    intro rest hall
    rw [allL, List.all_cons, Bool.and_eq_true, beq_iff_eq] at hall
    rw [List.cons_append, clusterSpec, fc_hangulL_L gp l hall.1]
    simp only
    rw [ih rest hall.2]
    rfl

theorem matchesCore_elim (gp : Char → Nat) :
    ∀ run : List Char, matchesCore gp run = true →
      ∃ ls x ts, run = ls ++ x :: ts ∧ allL gp ls = true ∧
        (gp x = GraphemeProperty.V ∨ gp x = GraphemeProperty.LV) ∧ allT gp ts = true := by
  intro run
  induction run with
  | nil => intro h; cases h
  | cons c rest ih =>
    intro h
    rw [matchesCore] at h
    by_cases hL : (gp c == GraphemeProperty.L) = true
    · rw [if_pos hL] at h
      obtain ⟨ls, x, ts, h1, h2, h3, h4⟩ := ih h
      refine ⟨c :: ls, x, ts, by rw [h1, List.cons_append], ?_, h3, h4⟩
      rw [allL, List.all_cons, Bool.and_eq_true]
      exact ⟨hL, h2⟩
    · rw [if_neg hL] at h
      by_cases hV : (gp c == GraphemeProperty.V || gp c == GraphemeProperty.LV) = true
      · rw [if_pos hV] at h
        rw [Bool.or_eq_true, beq_iff_eq, beq_iff_eq] at hV
        exact ⟨[], c, rest, rfl, rfl, hV, h⟩
      · rw [if_neg hV] at h
        cases h

theorem MatchesHangul_elim (gp : Char → Nat) (run : List Char)
    (h : MatchesHangul gp run = true) :
    (∃ ls x ts, run = ls ++ x :: ts ∧ allL gp ls = true ∧
      (gp x = GraphemeProperty.V ∨ gp x = GraphemeProperty.LV) ∧ allT gp ts = true) ∨
    (run ≠ [] ∧ allL gp run = true) := by
  rw [MatchesHangul, Bool.or_eq_true] at h
  rcases h with h | h
  · exact Or.inl (matchesCore_elim gp run h)
  · rw [Bool.and_eq_true] at h
    refine Or.inr ⟨?_, h.2⟩
    have := h.1
    cases run with
    | nil => cases this
    | cons a l => exact List.cons_ne_nil a l

theorem clusterSpec_matched_run (gp : Char → Nat) (r1 : Char) (run' rest : List Char)
    (hm : MatchesHangul gp (r1 :: run') = true) (hc1 : r1 ≠ '\r')
    (s0 : ClusterMachineState) (hnone : (find_cluster gp s0 r1).2 = Break.None) :
    ∃ s', clusterSpec gp s0 ((r1 :: run') ++ rest) =
      ((r1 :: run') ++ (clusterSpec gp s' rest).1, (clusterSpec gp s' rest).2) := by
  rcases MatchesHangul_elim gp _ hm with ⟨ls, x, ts, hsplit, hallL, hx, hallT⟩ | ⟨-, hallL⟩
  · cases ls with
    | nil =>
      simp only [List.nil_append, List.cons.injEq] at hsplit
      obtain ⟨hr1, hrun'⟩ := hsplit
      subst hr1
      subst hrun'
      have hfc : find_cluster gp s0 r1 = (.HangulSyllableV, .None) := by
        rcases fc_VLV_cases gp r1 hc1 hx s0 with hb | he
        · rw [hnone] at hb; cases hb
        · exact he
      obtain ⟨s', -, heq⟩ := clusterSpec_V_chain gp run' rest hallT
      refine ⟨s', ?_⟩
      rw [List.cons_append, clusterSpec, hfc]
      simp only
      rw [heq]
      rfl
    | cons l1 ls' =>
      simp only [List.cons_append, List.cons.injEq] at hsplit
      obtain ⟨hr1, hrun'⟩ := hsplit
      subst hr1
      subst hrun'
      rw [allL, List.all_cons, Bool.and_eq_true, beq_iff_eq] at hallL
      have hfc : find_cluster gp s0 r1 = (.HangulSyllableL, .None) := by
        rcases fc_L_cases gp r1 hc1 hallL.1 s0 with hb | he
        · rw [hnone] at hb; cases hb
        · exact he
      obtain ⟨s', -, heqV⟩ := clusterSpec_V_chain gp ts rest hallT
      refine ⟨s', ?_⟩
      rw [List.cons_append, clusterSpec, hfc]
      simp only
      rw [List.append_assoc ls' (x :: ts) rest]
      rw [clusterSpec_L_chain gp ls' ((x :: ts) ++ rest) hallL.2]
      rw [List.cons_append, clusterSpec, fc_hangulL_VLV gp x hx]
      simp only
      rw [heqV]
      simp [List.append_assoc]
  · rw [allL, List.all_cons, Bool.and_eq_true, beq_iff_eq] at hallL
    have hfc : find_cluster gp s0 r1 = (.HangulSyllableL, .None) := by
      rcases fc_L_cases gp r1 hc1 hallL.1 s0 with hb | he
      · rw [hnone] at hb; cases hb
      · exact he
    refine ⟨.HangulSyllableL, ?_⟩
    rw [List.cons_append, clusterSpec, hfc]
    simp only
    rw [clusterSpec_L_chain gp run' rest hallL.2]
    rfl

theorem clusterSpec_split (gp : Char → Nat) (tail : List Char) :
    ∀ (pre : List Char) (s : ClusterMachineState),
      (∃ A B, pre = A ++ B ∧ clusterSpec gp s (pre ++ tail) = (A, B ++ tail)) ∨
      (∃ s0, clusterSpec gp s (pre ++ tail) =
          (pre ++ (clusterSpec gp s0 tail).1, (clusterSpec gp s0 tail).2) ∧
        ((pre = [] ∧ s0 = s) ∨
         ∃ p pre₁ sp, pre = pre₁ ++ [p] ∧ find_cluster gp sp p = (s0, Break.None))) := by
  intro pre
  induction pre with
  | nil =>
    intro s
    exact Or.inr ⟨s, by simp, Or.inl ⟨rfl, rfl⟩⟩
  | cons c pre' ih =>
    intro s
    rw [List.cons_append, clusterSpec]
    rcases hf : find_cluster gp s c with ⟨s1, b⟩
    cases b with
    | None =>
      simp only
      rcases ih s1 with ⟨A, B, hAB, heq⟩ | ⟨s0, heq, horig⟩
      · refine Or.inl ⟨c :: A, B, by rw [hAB, List.cons_append], ?_⟩
        rw [heq]
      · refine Or.inr ⟨s0, by rw [heq]; rfl, ?_⟩
        rcases horig with ⟨hnil, hs0⟩ | ⟨p, pre₁, sp, hsplit, hfc⟩
        · subst hnil; subst hs0
          exact Or.inr ⟨c, [], s, rfl, hf⟩
        · exact Or.inr ⟨p, c :: pre₁, sp, by rw [hsplit, List.cons_append], hfc⟩
    | Before =>
      exact Or.inl ⟨[], c :: pre', rfl, by simp⟩
    | After =>
      exact Or.inl ⟨[c], pre', rfl, by simp⟩

/-- The first char of a run matching `L* (V|LV) T*` or `L+` has property `L`,
`V` or `LV`. -/
theorem MatchesHangul_head (gp : Char → Nat) (r1 : Char) (run' : List Char)
    (hm : MatchesHangul gp (r1 :: run') = true) :
    gp r1 = GraphemeProperty.L ∨ gp r1 = GraphemeProperty.V ∨
    gp r1 = GraphemeProperty.LV := by
  rcases MatchesHangul_elim gp _ hm with ⟨ls, x, ts, hsplit, hallL, hx, -⟩ | ⟨-, hallL⟩
  · cases ls with
    | nil =>
      simp only [List.nil_append, List.cons.injEq] at hsplit
      rw [hsplit.1]
      exact Or.inr hx
    | cons l1 ls' =>
      simp only [List.cons_append, List.cons.injEq] at hsplit
      rw [allL, List.all_cons, Bool.and_eq_true, beq_iff_eq] at hallL
      rw [hsplit.1]
      exact Or.inl hallL.1
  · rw [allL, List.all_cons, Bool.and_eq_true, beq_iff_eq] at hallL
    exact Or.inl hallL.1

/-- On the first char of a matching run, `find_cluster` decides `Before` or
`None` from any state — never `After`. -/
theorem matched_head_cases (gp : Char → Nat) (r1 : Char) (run' : List Char)
    (hm : MatchesHangul gp (r1 :: run') = true) (hc1 : r1 ≠ '\r')
    (s : ClusterMachineState) :
    (find_cluster gp s r1).2 = Break.Before ∨ (find_cluster gp s r1).2 = Break.None := by
  rcases MatchesHangul_head gp r1 run' hm with h | h | h
  · rcases fc_L_cases gp r1 hc1 h s with hb | he
    · exact Or.inl hb
    · exact Or.inr (by rw [he])
  · rcases fc_VLV_cases gp r1 hc1 (Or.inl h) s with hb | he
    · exact Or.inl hb
    · exact Or.inr (by rw [he])
  · rcases fc_VLV_cases gp r1 hc1 (Or.inr h) s with hb | he
    · exact Or.inl hb
    · exact Or.inr (by rw [he])

/-- Main containment lemma for C5: in any text `pre ++ run ++ post` where the
properties of `run` match `L* (V|LV) T*` or `L+` (and no run char is CR), the
whole run lands inside a single cluster of the iterator's output: some yielded
cluster `cl` decomposes as `A ++ run ++ B` with everything before `cl` plus
`A` reconstructing `pre` exactly. -/
theorem hangul_run_single_cluster (gp : Char → Nat) :
    ∀ (n : Nat) (cs pre run post : List Char), cs.length ≤ n →
      cs = pre ++ run ++ post →
      MatchesHangul gp run = true → (∀ c ∈ run, c ≠ '\r') →
      ∃ cls1 cl cls2 A B, graphemesList gp cs = cls1 ++ cl :: cls2 ∧
        cl = A ++ run ++ B ∧ cls1.flatten ++ A = pre := by
  intro n
  induction n with
  | zero =>
    intro cs pre run post hn hcs hm hcr
    have hcs0 : cs = [] := List.length_eq_zero.mp (Nat.le_zero.mp hn)
    subst hcs0
    cases run with
    | nil => rw [MatchesHangul] at hm; simp [matchesCore, allL] at hm
    | cons r1 run' =>
      exfalso
      have := congrArg List.length hcs
      simp [List.length_append] at this
      omega
  | succ n ih =>
    intro cs pre run post hn hcs hm hcr
    cases run with
    | nil => rw [MatchesHangul] at hm; simp [matchesCore, allL] at hm
    | cons r1 run' =>
      have hc1 : r1 ≠ '\r' := hcr r1 (by simp)
      have hcsne : cs ≠ [] := by
        rw [hcs]
        intro hh
        have := congrArg List.length hh
        simp [List.length_append] at this
      subst hcs
      by_cases hpre0 : pre = []
      · -- the run starts the text: the fresh machine consumes it whole
        subst hpre0
        have hnone : (find_cluster gp .Start r1).2 = Break.None := by
          rcases matched_head_cases gp r1 run' hm hc1 .Start with hb | hn'
          · exact absurd hb (by rw [find_cluster_start]; exact first_character_not_before gp r1)
          · exact hn'
        obtain ⟨s', heq2⟩ := clusterSpec_matched_run gp r1 run' post hm hc1 .Start hnone
        refine ⟨[], (r1 :: run') ++ (clusterSpec gp s' post).1,
          graphemesList gp (clusterSpec gp s' post).2, [], (clusterSpec gp s' post).1,
          ?_, by simp, by simp⟩
        rw [graphemesList_cons gp _ hcsne]
        have h1 : (clusterSpec gp .Start ([] ++ (r1 :: run') ++ post)).1 =
            (r1 :: run') ++ (clusterSpec gp s' post).1 := by
          simp only [List.nil_append]
          rw [heq2]
        have h2 : (clusterSpec gp .Start ([] ++ (r1 :: run') ++ post)).2 =
            (clusterSpec gp s' post).2 := by
          simp only [List.nil_append]
          rw [heq2]
        rw [h1, h2]
        simp
      · rcases clusterSpec_split gp ((r1 :: run') ++ post) pre .Start with
          ⟨A, B, hAB, heq⟩ | ⟨s0, heq, -⟩
        · -- the first cluster ends inside (or exactly at the end of) pre
          have hA : (clusterSpec gp .Start (pre ++ (r1 :: run') ++ post)).1 = A := by
            rw [List.append_assoc, heq]
          have hAne : A ≠ [] := by
            rw [← hA]
            exact clusterSpec_start_ne_nil gp _ hcsne
          have hrem : (clusterSpec gp .Start (pre ++ (r1 :: run') ++ post)).2 =
              B ++ (r1 :: run') ++ post := by
            rw [List.append_assoc, heq, List.append_assoc]
          rw [graphemesList_cons gp _ hcsne, hA, hrem]
          have hlen2 : (B ++ (r1 :: run') ++ post).length ≤ n := by
            have h1 := congrArg List.length hAB
            simp only [List.length_append, List.length_cons] at hn h1 ⊢
            cases A with
            | nil => exact absurd rfl hAne
            | cons a as => simp only [List.length_cons] at h1; omega
          obtain ⟨cls1, cl, cls2, A2, B2, hg, hcl, hpre⟩ :=
            ih (B ++ (r1 :: run') ++ post) B (r1 :: run') post hlen2 rfl hm hcr
          refine ⟨A :: cls1, cl, cls2, A2, B2, by rw [hg]; rfl, hcl, ?_⟩
          rw [List.flatten_cons, List.append_assoc, hpre, hAB]
        · -- pre is consumed entirely; the machine reaches r1 in state s0
          rcases hfc : find_cluster gp s0 r1 with ⟨s1, b⟩
          cases b with
          | None =>
            obtain ⟨s', heq2⟩ :=
              clusterSpec_matched_run gp r1 run' post hm hc1 s0 (by rw [hfc])
            refine ⟨[], pre ++ (r1 :: run') ++ (clusterSpec gp s' post).1,
              graphemesList gp (clusterSpec gp s' post).2, pre, (clusterSpec gp s' post).1,
              ?_, by simp, by simp⟩
            rw [graphemesList_cons gp _ hcsne]
            have h1 : (clusterSpec gp .Start (pre ++ (r1 :: run') ++ post)).1 =
                pre ++ ((r1 :: run') ++ (clusterSpec gp s' post).1) := by
              rw [List.append_assoc, heq, heq2]
            have h2 : (clusterSpec gp .Start (pre ++ (r1 :: run') ++ post)).2 =
                (clusterSpec gp s' post).2 := by
              rw [List.append_assoc, heq, heq2]
            rw [h1, h2]
            simp
          | Before =>
            -- the first cluster is exactly pre; the run starts the next cluster
            have hspec : clusterSpec gp s0 ((r1 :: run') ++ post) =
                ([], (r1 :: run') ++ post) := by
              rw [List.cons_append, clusterSpec, hfc]
            have h1 : (clusterSpec gp .Start (pre ++ (r1 :: run') ++ post)).1 = pre := by
              rw [List.append_assoc, heq, hspec]
              simp
            have h2 : (clusterSpec gp .Start (pre ++ (r1 :: run') ++ post)).2 =
                (r1 :: run') ++ post := by
              rw [List.append_assoc, heq, hspec]
            rw [graphemesList_cons gp _ hcsne, h1, h2]
            have hlen2 : ((r1 :: run') ++ post).length ≤ n := by
              simp only [List.length_append, List.length_cons] at hn ⊢
              cases pre with
              | nil => exact absurd rfl hpre0
              | cons p ps => simp only [List.length_cons] at hn; omega
            obtain ⟨cls1, cl, cls2, A2, B2, hg, hcl, hpre⟩ :=
              ih ((r1 :: run') ++ post) [] (r1 :: run') post hlen2 (by simp) hm hcr
            refine ⟨pre :: cls1, cl, cls2, A2, B2, by rw [hg]; rfl, hcl, ?_⟩
            rw [List.flatten_cons, List.append_assoc, hpre]
            simp
          | After =>
            exfalso
            rcases matched_head_cases gp r1 run' hm hc1 s0 with hb | hn'
            · rw [hfc] at hb; cases hb
            · rw [hfc] at hn'; cases hn'

/-! Regional-indicator (flag) pairs, for C7. -/

theorem clusterSpec_flag_pair (gp : Char → Nat) (r1 r2 : Char) (rest : List Char)
    (h2 : gp r2 = GraphemeProperty.REGIONAL_INDICATOR)
    (s0 : ClusterMachineState) (hfc : find_cluster gp s0 r1 = (.Flag, Break.None)) :
    clusterSpec gp s0 (r1 :: r2 :: rest) =
      (r1 :: r2 :: (clusterSpec gp .Other rest).1, (clusterSpec gp .Other rest).2) := by
  rw [clusterSpec, hfc]
  simp only
  rw [clusterSpec, fc_flag_RI gp r2 h2]

/-- Main containment lemma for C7: in any text `pre ++ [r1, r2] ++ post` where
`r1`, `r2` carry the Regional_Indicator property and `pre` does not end in a
Regional_Indicator (so the pair is a maximal run on the left), the pair lands
inside a single yielded cluster. -/
theorem flag_pair_single_cluster (gp : Char → Nat) :
    ∀ (n : Nat) (cs pre post : List Char) (r1 r2 : Char), cs.length ≤ n →
      cs = pre ++ [r1, r2] ++ post →
      gp r1 = GraphemeProperty.REGIONAL_INDICATOR →
      gp r2 = GraphemeProperty.REGIONAL_INDICATOR →
      r1 ≠ '\r' →
      (∀ p, pre.getLast? = some p → gp p ≠ GraphemeProperty.REGIONAL_INDICATOR) →
      ∃ cls1 cl cls2 A B, graphemesList gp cs = cls1 ++ cl :: cls2 ∧
        cl = A ++ [r1, r2] ++ B ∧ cls1.flatten ++ A = pre := by
  intro n
  induction n with
  | zero =>
    intro cs pre post r1 r2 hn hcs h1 h2 hc1 hpre
    have hcs0 : cs = [] := List.length_eq_zero.mp (Nat.le_zero.mp hn)
    subst hcs0
    exfalso
    have := congrArg List.length hcs
    simp [List.length_append] at this
    omega
  | succ n ih =>
    intro cs pre post r1 r2 hn hcs h1 h2 hc1 hpre
    have hcsne : cs ≠ [] := by
      rw [hcs]
      intro hh
      have := congrArg List.length hh
      simp [List.length_append] at this
    subst hcs
    by_cases hpre0 : pre = []
    · -- the pair starts the text
      subst hpre0
      have hfc : find_cluster gp .Start r1 = (.Flag, Break.None) := by
        rcases fc_RI_cases gp r1 hc1 h1 .Start with hb | he | ⟨hs, -⟩
        · exact absurd hb (by rw [find_cluster_start]; exact first_character_not_before gp r1)
        · exact he
        · cases hs
      have heq2 := clusterSpec_flag_pair gp r1 r2 post h2 .Start hfc
      refine ⟨[], r1 :: r2 :: (clusterSpec gp .Other post).1,
        graphemesList gp (clusterSpec gp .Other post).2, [], (clusterSpec gp .Other post).1,
        ?_, by simp, by simp⟩
      rw [graphemesList_cons gp _ hcsne]
      have h1' : (clusterSpec gp .Start ([] ++ [r1, r2] ++ post)).1 =
          r1 :: r2 :: (clusterSpec gp .Other post).1 := by
        simp only [List.nil_append, List.cons_append]
        rw [heq2]
      have h2' : (clusterSpec gp .Start ([] ++ [r1, r2] ++ post)).2 =
          (clusterSpec gp .Other post).2 := by
        simp only [List.nil_append, List.cons_append]
        rw [heq2]
      rw [h1', h2']
      simp
    · rcases clusterSpec_split gp ([r1, r2] ++ post) pre .Start with
        ⟨A, B, hAB, heq⟩ | ⟨s0, heq, horig⟩
      · -- the first cluster ends inside pre (or exactly at its end)
        have hA : (clusterSpec gp .Start (pre ++ [r1, r2] ++ post)).1 = A := by
          rw [List.append_assoc, heq]
        have hAne : A ≠ [] := by
          rw [← hA]
          exact clusterSpec_start_ne_nil gp _ hcsne
        have hrem : (clusterSpec gp .Start (pre ++ [r1, r2] ++ post)).2 =
            B ++ [r1, r2] ++ post := by
          rw [List.append_assoc, heq, List.append_assoc]
        rw [graphemesList_cons gp _ hcsne, hA, hrem]
        have hlen2 : (B ++ [r1, r2] ++ post).length ≤ n := by
          have hh := congrArg List.length hAB
          simp only [List.length_append, List.length_cons] at hn hh ⊢
          cases A with
          | nil => exact absurd rfl hAne
          | cons a as => simp only [List.length_cons] at hh; omega
        have hpreB : ∀ p, B.getLast? = some p → gp p ≠ GraphemeProperty.REGIONAL_INDICATOR := by
          intro p hp
          apply hpre p
          rw [hAB, List.getLast?_append_of_ne_nil A (by rintro rfl; cases hp)]
          exact hp
        obtain ⟨cls1, cl, cls2, A2, B2, hg, hcl, hpre2⟩ :=
          ih (B ++ [r1, r2] ++ post) B post r1 r2 hlen2 rfl h1 h2 hc1 hpreB
        refine ⟨A :: cls1, cl, cls2, A2, B2, by rw [hg]; rfl, hcl, ?_⟩
        rw [List.flatten_cons, List.append_assoc, hpre2, hAB]
      · -- pre consumed entirely; the machine reaches r1 in state s0
        rcases hfc : find_cluster gp s0 r1 with ⟨s1, b⟩
        cases b with
        | None =>
          have hflag : find_cluster gp s0 r1 = (.Flag, Break.None) := by
            rcases fc_RI_cases gp r1 hc1 h1 s0 with hb | he | ⟨hs, -⟩
            · rw [hfc] at hb; cases hb
            · exact he
            · exfalso
              subst hs
              rcases horig with ⟨hnil, -⟩ | ⟨p, pre₁, sp, hsplitp, hfcp⟩
              · exact hpre0 hnil
              · have hgp : gp p = GraphemeProperty.REGIONAL_INDICATOR :=
                  find_cluster_flag_origin gp sp p hfcp
                apply hpre p _ hgp
                rw [hsplitp]
                exact List.getLast?_concat _
          have heq2 := clusterSpec_flag_pair gp r1 r2 post h2 s0 hflag
          refine ⟨[], pre ++ r1 :: r2 :: (clusterSpec gp .Other post).1,
            graphemesList gp (clusterSpec gp .Other post).2, pre,
            (clusterSpec gp .Other post).1, ?_, by simp, by simp⟩
          rw [graphemesList_cons gp _ hcsne]
          have ha : (clusterSpec gp .Start (pre ++ [r1, r2] ++ post)).1 =
              pre ++ r1 :: r2 :: (clusterSpec gp .Other post).1 := by
            rw [List.append_assoc, heq]
            rw [show ([r1, r2] ++ post : List Char) = r1 :: r2 :: post from rfl, heq2]
          have hb : (clusterSpec gp .Start (pre ++ [r1, r2] ++ post)).2 =
              (clusterSpec gp .Other post).2 := by
            rw [List.append_assoc, heq]
            rw [show ([r1, r2] ++ post : List Char) = r1 :: r2 :: post from rfl, heq2]
          rw [ha, hb]
          rfl
        | Before =>
          have hspec : clusterSpec gp s0 ([r1, r2] ++ post) = ([], [r1, r2] ++ post) := by
            rw [show ([r1, r2] ++ post : List Char) = r1 :: r2 :: post from rfl,
              clusterSpec, hfc]
          have ha : (clusterSpec gp .Start (pre ++ [r1, r2] ++ post)).1 = pre := by
            rw [List.append_assoc, heq, hspec]
            simp
          have hb : (clusterSpec gp .Start (pre ++ [r1, r2] ++ post)).2 =
              [r1, r2] ++ post := by
            rw [List.append_assoc, heq, hspec]
          rw [graphemesList_cons gp _ hcsne, ha, hb]
          have hlen2 : ([r1, r2] ++ post).length ≤ n := by
            simp only [List.length_append, List.length_cons] at hn ⊢
            cases pre with
            | nil => exact absurd rfl hpre0
            | cons p ps => simp only [List.length_cons] at hn; omega
          obtain ⟨cls1, cl, cls2, A2, B2, hg, hcl, hpre2⟩ :=
            ih ([r1, r2] ++ post) [] post r1 r2 hlen2 (by simp) h1 h2 hc1
              (by intro p hp; cases hp)
          refine ⟨pre :: cls1, cl, cls2, A2, B2, by rw [hg]; rfl, hcl, ?_⟩
          rw [List.flatten_cons, List.append_assoc, hpre2]
          simp
        | After =>
          exfalso
          rcases fc_RI_cases gp r1 hc1 h1 s0 with hb | he | ⟨-, he⟩
          · rw [hfc] at hb; cases hb
          · rw [hfc] at he; simp at he
          · rw [hfc] at he; simp at he

/-! Claim theorems start here. -/

/-- C1: for every input text and every property table, concatenating, in
order, every cluster yielded by the `Graphemes` iterator constructed from that
text reproduces the original text exactly — the yielded substrings are
non-overlapping, contiguous, and cover the whole input. -/
theorem C1_graphemes_roundtrip (gp : Char → Nat) (cs : List Char) :
    (graphemesList gp cs).flatten = cs :=
  graphemesListAux_flatten gp cs.length cs (Nat.le_refl _)

/-- C2: for every input text and every property table, the sequence of cluster
strings produced by repeatedly calling `next_cluster` on a peekable char
stream over the text equals, as strings in order, the sequence of substrings
yielded by the `Graphemes` iterator constructed from the same text. -/
theorem C2_next_cluster_refines_graphemes (gp : Char → Nat) (cs : List Char) :
    clusterList gp cs = graphemesList gp cs := by
  rw [clusterList, graphemesList, clusterListAux_eq_graphemesListAux]

/-- Counterexample to C5: the two-character text whose properties are LV then
LVT — the very example named by the claim — matches the claimed regular
expression `L* (V|LV) (T|LVT)*` (and is trivially maximal, being the whole
text), yet the iterator splits it into two clusters: the `HangulSyllableV`
arm of `find_cluster` accepts only `V`, `T` and Extend/SpacingMark/ZWJ, so an
`LVT` after an `LV` breaks (which is what UAX #29 rule GB7 prescribes — the
code is right and the spec's regex is wrong). -/
theorem C5_counterexample :
    MatchesHangulSpec (fun c => if c = 'a' then 0x0d else 0x0e) ['a', 'b'] = true ∧
    graphemesList (fun c => if c = 'a' then 0x0d else 0x0e) ['a', 'b'] = [['a'], ['b']] :=
  ⟨by decide, by decide⟩

/-- C5 (amended): for every input text `pre ++ run ++ post`, any maximal run
of characters whose grapheme-break properties match `L* (V|LV) T*` or `L+`
(trailing `T*` instead of the claimed `(T|LVT)*`; for example the
two-character sequence with properties LV then T) is grouped by the iterator
into exactly one cluster: a single yielded cluster contains the whole run.
(The containment in fact holds for every such run, maximal or not; the chars
of the run are not CR, which is automatic for the real table since CR's
property is Control, not a Hangul class.) -/
theorem C5_hangul_run_one_cluster (gp : Char → Nat) (pre run post : List Char)
    (hm : MatchesHangul gp run = true)
    (hcr : ∀ c ∈ run, c ≠ '\r')
    (_hmaxl : ∀ p, pre.getLast? = some p → MatchesHangul gp (p :: run) = false)
    (_hmaxr : ∀ q, post.head? = some q → MatchesHangul gp (run ++ [q]) = false) :
    ∃ cls1 cl cls2 A B,
      graphemesList gp (pre ++ run ++ post) = cls1 ++ cl :: cls2 ∧
      cl = A ++ run ++ B ∧ cls1.flatten ++ A = pre :=
  hangul_run_single_cluster gp (pre ++ run ++ post).length _ pre run post (Nat.le_refl _)
    rfl hm hcr

/-- Witness for C5 (amended): with properties `'l' ↦ L`, `'v' ↦ LV`,
`'t' ↦ T` and 0 otherwise, the run `['l','v','t']` inside `"x l v t y"` is
maximal and lands in one cluster. -/
theorem C5_witness :
    MatchesHangul (fun c => if c = 'l' then 0x0c else if c = 'v' then 0x0d
      else if c = 't' then 0x09 else 0) ['l', 'v', 't'] = true ∧
    (∀ c ∈ (['l', 'v', 't'] : List Char), c ≠ '\r') ∧
    (∀ p, (['x'] : List Char).getLast? = some p →
      MatchesHangul (fun c => if c = 'l' then 0x0c else if c = 'v' then 0x0d
        else if c = 't' then 0x09 else 0) (p :: ['l', 'v', 't']) = false) ∧
    (∀ q, (['y'] : List Char).head? = some q →
      MatchesHangul (fun c => if c = 'l' then 0x0c else if c = 'v' then 0x0d
        else if c = 't' then 0x09 else 0) (['l', 'v', 't'] ++ [q]) = false) ∧
    ∃ cls1 cl cls2 A B,
      graphemesList (fun c => if c = 'l' then 0x0c else if c = 'v' then 0x0d
        else if c = 't' then 0x09 else 0) (['x'] ++ ['l', 'v', 't'] ++ ['y']) =
          cls1 ++ cl :: cls2 ∧
      cl = A ++ ['l', 'v', 't'] ++ B ∧ cls1.flatten ++ A = ['x'] :=
  ⟨by decide, by decide,
    fun p hp => by
      have : p = 'x' := by simpa using hp.symm
      subst this
      decide,
    fun q hq => by
      have : q = 'y' := by simpa using hq.symm
      subst this
      decide,
    C5_hangul_run_one_cluster _ ['x'] ['l', 'v', 't'] ['y'] (by decide) (by decide)
      (fun p hp => by
        have : p = 'x' := by simpa using hp.symm
        subst this
        decide)
      (fun q hq => by
        have : q = 'y' := by simpa using hq.symm
        subst this
        decide)⟩

/-- C7: a maximal run of exactly two consecutive Regional_Indicator chars is
grouped into one cluster — a single yielded cluster contains both (possibly
together with a preceding Prepend base or following extenders) — and the
`Flag` state consumes exactly one additional Regional_Indicator, moving to the
generic `Other` continuation state with decision `None`.  Maximality on the
left (`pre` does not end in an RI) is essential: in a run of three or more
RIs a later pair is split.  The right-maximality hypothesis keeps the claim's
"exactly two" reading. -/
theorem C7_flag_pair_one_cluster (gp : Char → Nat) (pre post : List Char) (r1 r2 : Char)
    (h1 : gp r1 = GraphemeProperty.REGIONAL_INDICATOR)
    (h2 : gp r2 = GraphemeProperty.REGIONAL_INDICATOR)
    (hc1 : r1 ≠ '\r')
    (hmaxl : ∀ p, pre.getLast? = some p → gp p ≠ GraphemeProperty.REGIONAL_INDICATOR)
    (_hmaxr : ∀ q, post.head? = some q → gp q ≠ GraphemeProperty.REGIONAL_INDICATOR) :
    (∃ cls1 cl cls2 A B,
      graphemesList gp (pre ++ [r1, r2] ++ post) = cls1 ++ cl :: cls2 ∧
      cl = A ++ [r1, r2] ++ B ∧ cls1.flatten ++ A = pre) ∧
    (∀ c, gp c = GraphemeProperty.REGIONAL_INDICATOR →
      find_cluster gp .Flag c = (.Other, .None)) :=
  ⟨flag_pair_single_cluster gp (pre ++ [r1, r2] ++ post).length _ pre post r1 r2
      (Nat.le_refl _) rfl h1 h2 hc1 hmaxl,
    fun c hcp => fc_flag_RI gp c hcp⟩

/-- Witness for C7: with `'1'` and `'2'` as the two regional indicators inside
`"x 1 2 y"`, all hypotheses hold and the pair lands in one cluster. -/
theorem C7_witness :
    (fun c => if c = '1' ∨ c = '2' then 7 else 0 : Char → Nat) '1' =
        GraphemeProperty.REGIONAL_INDICATOR ∧
    ('1' : Char) ≠ '\r' ∧
    ((∃ cls1 cl cls2 A B,
      graphemesList (fun c => if c = '1' ∨ c = '2' then 7 else 0)
          (['x'] ++ ['1', '2'] ++ ['y']) = cls1 ++ cl :: cls2 ∧
      cl = A ++ ['1', '2'] ++ B ∧ cls1.flatten ++ A = ['x']) ∧
    (∀ c, (fun c => if c = '1' ∨ c = '2' then 7 else 0 : Char → Nat) c =
        GraphemeProperty.REGIONAL_INDICATOR →
      find_cluster (fun c => if c = '1' ∨ c = '2' then 7 else 0) .Flag c =
        (.Other, .None))) :=
  ⟨by decide, by decide,
    C7_flag_pair_one_cluster (fun c => if c = '1' ∨ c = '2' then 7 else 0)
      ['x'] ['y'] '1' '2' (by decide) (by decide) (by decide)
      (fun p hp => by
        have : p = 'x' := by simpa using hp.symm
        subst this
        decide)
      (fun q hq => by
        have : q = 'y' := by simpa using hq.symm
        subst this
        decide)⟩

/-- C3: for every input text, no boundary between two consecutive clusters
yielded by the grapheme iterator falls between a `'\r'` and an immediately
following `'\n'`: no yielded cluster ends with `'\r'` while the next yielded
cluster starts with `'\n'` (so every `"\r\n"` occurrence lies inside a single
cluster).  The hypotheses record that the property table tags CR and LF as
`Control` (0x04), as build.rs generates it.  By C2 the same holds for the
`next_cluster` interface, which yields the identical sequence. -/
theorem C3_crlf_never_split (gp : Char → Nat)
    (hcr : gp '\r' = GraphemeProperty.CONTROL)
    (hlf : gp '\n' = GraphemeProperty.CONTROL) (cs : List Char) :
    List.Chain' (fun a b => ¬(a.getLast? = some '\r' ∧ b.head? = some '\n'))
      (graphemesList gp cs) :=
  crlf_chain gp hcr hlf cs.length cs (Nat.le_refl _)

/-- Witness for C3: a property table tagging CR and LF as Control satisfies
the hypotheses, and on the text `"a\r\nb"` the clusters are never split
between `'\r'` and `'\n'` (they come out as `["a", "\r\n", "b"]`). -/
theorem C3_witness :
    (fun c => if c = '\r' ∨ c = '\n' then 4 else 0 : Char → Nat) '\r' =
        GraphemeProperty.CONTROL ∧
    (fun c => if c = '\r' ∨ c = '\n' then 4 else 0 : Char → Nat) '\n' =
        GraphemeProperty.CONTROL ∧
    List.Chain' (fun a b => ¬(a.getLast? = some '\r' ∧ b.head? = some '\n'))
      (graphemesList (fun c => if c = '\r' ∨ c = '\n' then 4 else 0) ['a', '\r', '\n', 'b']) :=
  ⟨by decide, by decide,
    C3_crlf_never_split (fun c => if c = '\r' ∨ c = '\n' then 4 else 0)
      (by decide) (by decide) ['a', '\r', '\n', 'b']⟩

/-- C10: every cluster yielded by either segmentation interface is non-empty —
each `some (cluster, rest)` returned by `Graphemes::next` or by `next_cluster`
has a nonempty cluster, because the first `find_cluster` call on a freshly
constructed machine (state `Start`) only ever returns `None` or `After`,
never `Before`. -/
theorem C10_clusters_nonempty (gp : Char → Nat) (cs cl rem : List Char) (c : Char) :
    (graphemesNext gp cs = some (cl, rem) → cl ≠ []) ∧
    (next_cluster gp cs = some (cl, rem) → cl ≠ []) ∧
    (find_cluster gp .Start c).2 ≠ Break.Before := by
  refine ⟨fun h => (graphemesNext_some gp cs cl rem h).2, fun h => ?_, ?_⟩
  · rw [next_cluster_eq_graphemesNext] at h
    exact (graphemesNext_some gp cs cl rem h).2
  · rw [find_cluster_start]
    exact first_character_not_before gp c

/-- Witness for C10: at the one-char input `['a']` with the trivial property
table, `Graphemes::next` indeed yields `(['a'], [])`, and the theorem applies
to show the cluster nonempty. -/
theorem C10_witness :
    graphemesNext (fun _ => 0) ['a'] = some (['a'], []) ∧ (['a'] : List Char) ≠ [] :=
  ⟨by decide, (C10_clusters_nonempty (fun _ => 0) ['a'] ['a'] [] 'a').1 (by decide)⟩

/-- C4 (documenting the code bug): the table produced by build.rs stores
`cat_to_u8 "Cc" = 0x61`, `"Cf" ↦ 0x62`, `"Co" ↦ 0x64` and the default `0x60`
for unassigned code points, exactly the bytes the spec names — yet the
C-family leaf predicates of categories.rs compare the looked-up code against
`Cat::Cc = 0x01`, `Cat::Cf = 0x02`, `Cat::Co = 0x04`, `Cat::Cn = 0x00`, so on
any char whose table cell holds the generated byte they all return `false`.
The hypotheses record the table cells for the chars the repository's own test
suite asserts (`'\t'.is_control()`, `'\u{00AD}'.is_format()`,
`'\u{100000}'.is_private_use()`, `'\u{FFFF}'.is_unassigned()`): under them
every one of these asserted predicates evaluates to `false`. -/
theorem C4_c_family_predicates_bug (get_code : Char → Nat)
    (ht : get_code '\t' = cat_to_u8 "Cc")
    (had : get_code (Char.ofNat 0xAD) = cat_to_u8 "Cf")
    (hpu : get_code (Char.ofNat 0x100000) = cat_to_u8 "Co")
    (hun : get_code (Char.ofNat 0xFFFF) = 0x60) :
    cat_to_u8 "Cc" = 0x61 ∧ cat_to_u8 "Cf" = 0x62 ∧ cat_to_u8 "Co" = 0x64 ∧
    is_control get_code '\t' = false ∧
    is_format get_code (Char.ofNat 0xAD) = false ∧
    is_private_use get_code (Char.ofNat 0x100000) = false ∧
    is_unassigned get_code (Char.ofNat 0xFFFF) = false := by
  refine ⟨rfl, rfl, rfl, ?_, ?_, ?_, ?_⟩ <;>
    simp [is_control, is_format, is_private_use, is_unassigned, ht, had, hpu, hun, cat_to_u8]

/-- Witness for C4: a concrete table assigning exactly the generated bytes to
the four test chars satisfies the hypotheses, and the conclusion follows by
the theorem. -/
theorem C4_witness :
    (fun c => if c = '\t' then 0x61 else if c = Char.ofNat 0xAD then 0x62
      else if c = Char.ofNat 0x100000 then 0x64 else 0x60 : Char → Nat) '\t' =
        cat_to_u8 "Cc" ∧
    is_control (fun c => if c = '\t' then 0x61 else if c = Char.ofNat 0xAD then 0x62
      else if c = Char.ofNat 0x100000 then 0x64 else 0x60) '\t' = false :=
  ⟨by decide,
    (C4_c_family_predicates_bug
      (fun c => if c = '\t' then 0x61 else if c = Char.ofNat 0xAD then 0x62
        else if c = Char.ofNat 0x100000 then 0x64 else 0x60)
      (by decide) (by decide) (by decide) (by decide)).2.2.2.1⟩

/-- Every byte value `cat_to_u8` can produce; since build.rs fills the raw
category array only with `cat_to_u8` results over a default of 0x60, these are
the only possible cells of the generated category table. -/
theorem cat_to_u8_cases (s : String) :
    cat_to_u8 s = 0x90 ∨ cat_to_u8 s = 0x91 ∨ cat_to_u8 s = 0x92 ∨
    cat_to_u8 s = 0x83 ∨ cat_to_u8 s = 0x84 ∨ cat_to_u8 s = 0x10 ∨
    cat_to_u8 s = 0x11 ∨ cat_to_u8 s = 0x12 ∨ cat_to_u8 s = 0x20 ∨
    cat_to_u8 s = 0x21 ∨ cat_to_u8 s = 0x22 ∨ cat_to_u8 s = 0x30 ∨
    cat_to_u8 s = 0x31 ∨ cat_to_u8 s = 0x32 ∨ cat_to_u8 s = 0x33 ∨
    cat_to_u8 s = 0x34 ∨ cat_to_u8 s = 0x35 ∨ cat_to_u8 s = 0x36 ∨
    cat_to_u8 s = 0x40 ∨ cat_to_u8 s = 0x41 ∨ cat_to_u8 s = 0x42 ∨
    cat_to_u8 s = 0x43 ∨ cat_to_u8 s = 0x50 ∨ cat_to_u8 s = 0x51 ∨
    cat_to_u8 s = 0x52 ∨ cat_to_u8 s = 0x61 ∨ cat_to_u8 s = 0x62 ∨
    cat_to_u8 s = 0x63 ∨ cat_to_u8 s = 0x64 ∨ cat_to_u8 s = 0x60 := by
  unfold cat_to_u8
  split <;> simp

/-- C8: for any category-table cell (a `cat_to_u8` byte), `is_letter` holds
exactly when the code is one of the five letter codes {Lu 0x90, Ll 0x91,
Lt 0x92, Lm 0x83, Lo 0x84} (the codes with bit 0x80 set), and
`is_cased_letter` holds exactly when the code is one of {Lu, Ll, Lt} (the
codes with high nibble 0x9). -/
theorem C8_letter_predicates (get_code : Char → Nat) (c : Char)
    (h : ∃ s, get_code c = cat_to_u8 s) :
    (is_letter get_code c = true ↔
      (get_code c = 0x90 ∨ get_code c = 0x91 ∨ get_code c = 0x92 ∨
       get_code c = 0x83 ∨ get_code c = 0x84)) ∧
    (is_cased_letter get_code c = true ↔
      (get_code c = 0x90 ∨ get_code c = 0x91 ∨ get_code c = 0x92)) := by
  obtain ⟨s, hs⟩ := h
  have hm := cat_to_u8_cases s
  rw [← hs] at hm
  unfold is_letter is_cased_letter
  rcases hm with h'|h'|h'|h'|h'|h'|h'|h'|h'|h'|h'|h'|h'|h'|h'|h'|h'|h'|h'|h'|h'|h'|h'|h'|h'|
    h'|h'|h'|h'|h' <;> rw [h'] <;> decide

/-- Witness for C8: with the cell `cat_to_u8 "Lu" = 0x90` the hypothesis is
satisfied and both equivalences hold (letter and cased letter). -/
theorem C8_witness :
    (∃ s, (fun _ => cat_to_u8 "Lu" : Char → Nat) 'A' = cat_to_u8 s) ∧
    ((is_letter (fun _ => cat_to_u8 "Lu") 'A' = true ↔
      ((fun _ => cat_to_u8 "Lu" : Char → Nat) 'A' = 0x90 ∨
       (fun _ => cat_to_u8 "Lu" : Char → Nat) 'A' = 0x91 ∨
       (fun _ => cat_to_u8 "Lu" : Char → Nat) 'A' = 0x92 ∨
       (fun _ => cat_to_u8 "Lu" : Char → Nat) 'A' = 0x83 ∨
       (fun _ => cat_to_u8 "Lu" : Char → Nat) 'A' = 0x84)) ∧
     (is_cased_letter (fun _ => cat_to_u8 "Lu") 'A' = true ↔
      ((fun _ => cat_to_u8 "Lu" : Char → Nat) 'A' = 0x90 ∨
       (fun _ => cat_to_u8 "Lu" : Char → Nat) 'A' = 0x91 ∨
       (fun _ => cat_to_u8 "Lu" : Char → Nat) 'A' = 0x92))) :=
  ⟨⟨"Lu", rfl⟩, C8_letter_predicates (fun _ => cat_to_u8 "Lu") 'A' ⟨"Lu", rfl⟩⟩

/-- C9: for every Rust `char` (every Unicode scalar value — surrogates are
excluded by the type, as in Rust) and every well-shaped two-level table, the
lookup `TABLE[c as usize >> 8].get_code(c as u8)` returns a byte with no
out-of-bounds access: the top index `c >> 8` is below 0x1100 and the page
index `c & 0xFF` is below 256.  One generic theorem covers both instances
(`get_property` over GP_TABLE/GP_PAGES and `get_code` over
CAT_TABLE/CAT_PAGES), which share the same shape. -/
theorem C9_lookup_total (t : PropertyTable) (hw : t.WellFormed) (c : Char) :
    ∃ b, t.get_property c = some b := by
  obtain ⟨hlen, hpage, hpglen⟩ := hw
  have hval : c.toNat < 0x110000 := by
    rcases c.valid with h | ⟨h1, h2⟩
    · exact Nat.lt_trans h (by norm_num)
    · exact h2
  have hidx : c.toNat >>> 8 < 0x1100 := by
    rw [Nat.shiftRight_eq_div_pow]
    have h256 : (2 : Nat) ^ 8 = 256 := by norm_num
    rw [h256]
    rw [Nat.div_lt_iff_lt_mul (by norm_num : (0 : Nat) < 256)]
    exact Nat.lt_of_lt_of_le hval (by norm_num)
  have hidx2 : c.toNat >>> 8 < t.table.length := by rw [hlen]; exact hidx
  rw [PropertyTable.get_property]
  rcases hg : t.table[c.toNat >>> 8]? with _ | e
  · rw [List.getElem?_eq_none_iff] at hg
    omega
  · rw [Option.some_bind]
    have hmem : e ∈ t.table := List.getElem?_mem hg
    cases e with
    | Code code => exact ⟨code, rfl⟩
    | Page page =>
      have hp : page < t.pages.length := hpage page hmem
      rw [Either.get_code]
      rcases hg2 : t.pages[page]? with _ | pg
      · rw [List.getElem?_eq_none_iff] at hg2
        omega
      · rw [Option.some_bind]
        have hpg256 : pg.length = 256 := hpglen pg (List.getElem?_mem hg2)
        rcases hg3 : pg[c.toNat % 256]? with _ | b
        · rw [List.getElem?_eq_none_iff] at hg3
          have hm : c.toNat % 256 < 256 := Nat.mod_lt _ (by norm_num)
          omega
        · exact ⟨b, rfl⟩

/-- Witness for C9: the table whose 0x1100 top-level entries are all the
literal code 0 (no page references) is well-formed, and lookup succeeds on a
concrete char. -/
theorem C9_witness :
    (PropertyTable.mk (List.replicate 0x1100 (Either.Code 0)) []).WellFormed ∧
    ∃ b, (PropertyTable.mk (List.replicate 0x1100 (Either.Code 0)) []).get_property 'A' =
      some b := by
  have hw : (PropertyTable.mk (List.replicate 0x1100 (Either.Code 0)) []).WellFormed := by
    refine ⟨List.length_replicate _ _, ?_, ?_⟩
    · intro p hp
      have hh := List.eq_of_mem_replicate hp
      cases hh
    · intro pg hpg
      cases hpg
  exact ⟨hw, C9_lookup_total _ hw 'A'⟩

/-- Counterexample to C6: for a lookahead char whose grapheme-break property is
`T` (0x09), `find_cluster` in state `HangulSyllableL` does not return the
decision `None` claimed by the spec's transition table: the `HangulSyllableL`
arm only matches `L`, `V | LV`, `LVT` and `EXTEND | SPACING_MARK | ZWJ`, so a
plain `T` falls to the catch-all, which re-dispatches (landing in state
`HangulSyllableT`) but returns `Before`. -/
theorem C6_counterexample :
    (fun _ => GraphemeProperty.T : Char → Nat) 'x' = GraphemeProperty.T ∧
    find_cluster (fun _ => GraphemeProperty.T) .HangulSyllableL 'x' =
      (.HangulSyllableT, .Before) ∧
    (find_cluster (fun _ => GraphemeProperty.T) .HangulSyllableL 'x').2 ≠ Break.None :=
  ⟨rfl, by decide, by decide⟩

/-- C6 (amended): in state `HangulSyllableL`, a lookahead with property `LVT`
transitions to `HangulSyllableT` with decision `None`; a lookahead with
property `T` yields decision `Before` (the re-dispatch sets the state to
`HangulSyllableT` for the next cluster); and a lookahead in the V/LV column
transitions to `HangulSyllableV` with decision `None`. -/
theorem C6_hangul_L_transitions (gp : Char → Nat) (c : Char) (h : c ≠ '\r') :
    (gp c = GraphemeProperty.LVT →
      find_cluster gp .HangulSyllableL c = (.HangulSyllableT, .None)) ∧
    (gp c = GraphemeProperty.T →
      find_cluster gp .HangulSyllableL c = (.HangulSyllableT, .Before)) ∧
    ((gp c = GraphemeProperty.V ∨ gp c = GraphemeProperty.LV) →
      find_cluster gp .HangulSyllableL c = (.HangulSyllableV, .None)) := by
  refine ⟨fun hp => ?_, fun hp => ?_, fun hp => ?_⟩
  · simp [find_cluster.eq_def, hp]
  · simp [find_cluster.eq_def, first_character, firstState, hp, h]
  · rcases hp with hp | hp <;> simp [find_cluster.eq_def, hp]

/-- Witness for C6 (amended): a char of property `LVT` after `HangulSyllableL`
is indeed absorbed with decision `None` into state `HangulSyllableT`. -/
theorem C6_witness :
    ('g' : Char) ≠ '\r' ∧
    find_cluster (fun _ => GraphemeProperty.LVT) .HangulSyllableL 'g' =
      (.HangulSyllableT, .None) :=
  ⟨by decide,
    (C6_hangul_L_transitions (fun _ => GraphemeProperty.LVT) 'g' (by decide)).1 rfl⟩

end FinlUnicode
